import Mathlib

/-!
Verification of the Odnix secure-transport core (`chat/odnix_security.py`,
`chat/odnix_proto.py`, handshake portion of `chat/consumers.py`).

Bytes are modelled as `List Nat` (each entry a value `0..255`; the byte
operations used — XOR, equality, slicing — are faithful on arbitrary `Nat`).
Library primitives the source calls (AES-ECB block operations, SHA-256,
SHA-1, base64, JSON) are opaque to the repository code, so they are
abstracted as parameters bundled with exactly the laws the library
guarantees (block-cipher inversion, digest lengths, base64/JSON
round-trips).  Python exceptions are modelled with `Except String`, and a
Python function that `return None`s is modelled as returning `Option`.
-/

namespace Odnix

abbrev Bytes := List Nat

/-- Elementwise XOR; like Python `zip`, it truncates to the shorter list. -/
def zipXor (a b : Bytes) : Bytes :=
  List.zipWith (fun x y => x ^^^ y) a b

/-- The opaque library primitives used by `odnix_security.py`
(`Crypto.Cipher.AES` in ECB mode, `hashlib.sha256` / `hashlib.sha1`,
`base64`), together with the laws those libraries guarantee. -/
structure Prims where
  aesEnc : Bytes → Bytes → Bytes
  aesDec : Bytes → Bytes → Bytes
  sha256 : Bytes → Bytes
  sha1 : Bytes → Bytes
  b64enc : Bytes → Bytes
  b64dec : Bytes → Option Bytes
  aesEnc_len : ∀ k b, b.length = 16 → (aesEnc k b).length = 16
  aesDec_len : ∀ k b, b.length = 16 → (aesDec k b).length = 16
  aesDec_enc : ∀ k b, b.length = 16 → aesDec k (aesEnc k b) = b
  sha256_len : ∀ b, (sha256 b).length = 32
  sha1_len : ∀ b, (sha1 b).length = 20
  b64dec_enc : ∀ b, b64dec (b64enc b) = some b

/-- The opaque JSON codec (`json.dumps` / `json.loads`) for a type `P` of
JSON-serializable payloads. -/
structure JsonCodec (P : Type) where
  dumps : P → Bytes
  loads : Bytes → Option P
  loads_dumps : ∀ p, loads (dumps p) = some p

/-- Python `b[-n:]`. -/
def lastBytes (n : Nat) (bs : Bytes) : Bytes :=
  bs.drop (bs.length - n)

/-- `struct.pack('<Q', n)`: 8 little-endian bytes. -/
def packU64 (n : Nat) : Bytes :=
  [n % 256, n / 256 % 256, n / 256 ^ 2 % 256, n / 256 ^ 3 % 256,
   n / 256 ^ 4 % 256, n / 256 ^ 5 % 256, n / 256 ^ 6 % 256, n / 256 ^ 7 % 256]

/-- `struct.pack('<I', n)`: 4 little-endian bytes. -/
def packU32 (n : Nat) : Bytes :=
  [n % 256, n / 256 % 256, n / 256 ^ 2 % 256, n / 256 ^ 3 % 256]

/-- The padding step at the top of `aes_ige_encrypt`:
`pad_len = 16 - (len(data) % 16); data += bytes([pad_len] * pad_len)`. -/
def pkcs7pad (data : Bytes) : Bytes :=
  data ++ List.replicate (16 - data.length % 16) (16 - data.length % 16)

/-- The block loop of `aes_ige_encrypt`, indexed by the number of
iterations of `for i in range(0, len(data), block_size)` — one per
16-byte chunk: `C_i = ENC(P_i ^ C_prev) ^ M_prev`, then `C_prev := C_i`,
`M_prev := P_i`. -/
def igeEncBlocks (enc : Bytes → Bytes) : Nat → Bytes → Bytes → Bytes → Bytes
  | 0, _, _, _ => []
  | nb + 1, data, c, m =>
    let pb := data.take 16
    let cb := zipXor (enc (zipXor pb c)) m
    cb ++ igeEncBlocks enc nb (data.drop 16) cb pb

/-- The block loop of `aes_ige_encrypt`; `range(0, len(data), 16)` has
`⌈len(data)/16⌉` iterations. -/
def igeEncLoop (enc : Bytes → Bytes) (data c m : Bytes) : Bytes :=
  igeEncBlocks enc ((data.length + 15) / 16) data c m

/-- The block loop of `aes_ige_decrypt`, indexed by the iteration count:
`P_i = DEC(C_i ^ M_prev) ^ C_prev`, then `C_prev := C_i`, `M_prev := P_i`.
`AES.decrypt` raises `ValueError` when its input is not a multiple of the
16-byte block size (which happens exactly when a trailing partial chunk is
reached), modelled as an `Except.error`. -/
def igeDecBlocks (dec : Bytes → Bytes) :
    Nat → Bytes → Bytes → Bytes → Except String Bytes
  | 0, _, _, _ => .ok []
  | nb + 1, data, c, m =>
    let cb := data.take 16
    let ib := zipXor cb m
    if ib.length % 16 ≠ 0 then
      .error "ValueError: Data must be padded to 16 byte boundary in ECB mode"
    else
      let pb := zipXor (dec ib) c
      match igeDecBlocks dec nb (data.drop 16) cb pb with
      | .ok rest => .ok (pb ++ rest)
      | .error e => .error e

/-- The block loop of `aes_ige_decrypt`. -/
def igeDecLoop (dec : Bytes → Bytes) (data c m : Bytes) : Except String Bytes :=
  igeDecBlocks dec ((data.length + 15) / 16) data c m

/-- `OdnixSecurity.aes_ige_encrypt`: PKCS7-pad, then run the IGE loop with
`iv[:16]` as the previous-ciphertext seed and `iv[16:]` as the
previous-plaintext seed. -/
def aes_ige_encrypt (pr : Prims) (data key iv : Bytes) : Bytes :=
  igeEncLoop (pr.aesEnc key) (pkcs7pad data) (iv.take 16) (iv.drop 16)

/-- `OdnixSecurity.aes_ige_decrypt`: run the IGE loop, then read the final
byte as the pad length.  On empty plaintext, `plaintext[-1]` raises
`IndexError`.  When the pad byte is out of `[1,16]` the code returns the
plaintext unstripped (`return plaintext`); otherwise it strips
`plaintext[:-pad_len]`. -/
def aes_ige_decrypt (pr : Prims) (data key iv : Bytes) : Except String Bytes :=
  match igeDecLoop (pr.aesDec key) data (iv.take 16) (iv.drop 16) with
  | .error e => .error e
  | .ok plaintext =>
    match plaintext.getLast? with
    | none => .error "IndexError: index out of range"
    | some padLen =>
      if padLen < 1 ∨ padLen > 16 then .ok plaintext
      else .ok (plaintext.take (plaintext.length - padLen))

/-- The per-connection security state of `OdnixSecurity.__init__`:
`auth_key = None`, plus an 8-byte `session_id` and 8-byte `salt`
(`get_random_bytes(8)`), and `server_nonce = None`. -/
structure OdnixSecurity where
  auth_key : Option Bytes
  session_id : Bytes
  salt : Bytes
  server_nonce : Option Bytes

/-- Python truthiness of `self.auth_key` as used by
`if not self.auth_key:` — falsy when `None` or empty bytes. -/
def authKeyFalsy : Option Bytes → Bool
  | none => true
  | some k => k.isEmpty

/-- `msg_key = sha256(auth_key + inner_data)[:16]` (`wrap_message`). -/
def msgKeyOf (pr : Prims) (authKey inner : Bytes) : Bytes :=
  (pr.sha256 (authKey ++ inner)).take 16

/-- `aes_key = sha256(msg_key + auth_key)` (both `wrap_message` and
`unwrap_message`). -/
def aesKeyOf (pr : Prims) (authKey msgKey : Bytes) : Bytes :=
  pr.sha256 (msgKey ++ authKey)

/-- `aes_iv = sha256(auth_key + msg_key)` (both `wrap_message` and
`unwrap_message`). -/
def aesIvOf (pr : Prims) (authKey msgKey : Bytes) : Bytes :=
  pr.sha256 (authKey ++ msgKey)

/-- `auth_key_id = sha1(auth_key)[-8:]` (`wrap_message`). -/
def authKeyIdOf (pr : Prims) (authKey : Bytes) : Bytes :=
  lastBytes 8 (pr.sha1 authKey)

/-- `OdnixSecurity.wrap_message`.  `now` stands for
`int(time.time()*1000)`.  Raises `ValueError` when `auth_key` is falsy;
otherwise builds `inner = salt + session_id + pack('<Q', now) + dumps(payload)`,
derives `msg_key`/`aes_key`/`aes_iv`, IGE-encrypts, and returns the
base64-encoded `auth_key_id + msg_key + ciphertext`. -/
def wrap_message {P : Type} (pr : Prims) (jc : JsonCodec P)
    (s : OdnixSecurity) (now : Nat) (payload : P) : Except String Bytes :=
  match s.auth_key with
  | none => .error "No AuthKey established"
  | some k =>
    if k.isEmpty then .error "No AuthKey established"
    else
      let inner_data := s.salt ++ s.session_id ++ packU64 now ++ jc.dumps payload
      let msg_key := msgKeyOf pr k inner_data
      let encrypted_data :=
        aes_ige_encrypt pr inner_data (aesKeyOf pr k msg_key) (aesIvOf pr k msg_key)
      .ok (pr.b64enc (authKeyIdOf pr k ++ msg_key ++ encrypted_data))

/-- `OdnixSecurity.unwrap_message`.  Raises `ValueError` when `auth_key` is
falsy; returns `None` on base64 failure, short packets (< 24 bytes), short
decrypted data (< 24 bytes) or JSON failure; errors raised inside
`aes_ige_decrypt` are not caught and propagate. -/
def unwrap_message {P : Type} (pr : Prims) (jc : JsonCodec P)
    (s : OdnixSecurity) (wire : Bytes) : Except String (Option P) :=
  match s.auth_key with
  | none => .error "No AuthKey established"
  | some k =>
    if k.isEmpty then .error "No AuthKey established"
    else
      match pr.b64dec wire with
      | none => .ok none
      | some packet =>
        if packet.length < 24 then .ok none
        else
          let msg_key := (packet.drop 8).take 16
          match aes_ige_decrypt pr (packet.drop 24)
              (aesKeyOf pr k msg_key) (aesIvOf pr k msg_key) with
          | .error e => .error e
          | .ok decrypted_data =>
            if decrypted_data.length < 24 then .ok none
            else
              match jc.loads (decrypted_data.drop 24) with
              | none => .ok none
              | some p => .ok (some p)

/-- The wire envelope of `odnix_proto.OdnixPacket`. -/
structure OdnixPacket where
  auth_key_id : Bytes
  msg_key : Bytes
  encrypted_data : Bytes
deriving DecidableEq

/-- `OdnixPacket.to_bytes`: straight concatenation. -/
def OdnixPacket.to_bytes (p : OdnixPacket) : Bytes :=
  p.auth_key_id ++ p.msg_key ++ p.encrypted_data

/-- `OdnixPacket.from_bytes`: raises `ValueError("Packet too short")` on
fewer than 24 bytes, else splits at offsets 8 and 24. -/
def OdnixPacket.from_bytes (data : Bytes) : Except String OdnixPacket :=
  if data.length < 24 then .error "Packet too short"
  else .ok ⟨data.take 8, (data.drop 8).take 16, data.drop 24⟩

/-- `odnix_proto.OdnixPayload.to_bytes`.  `rand` stands for `os.urandom`
and `msg_bytes` for `self.message.to_bytes()`.  The header is
`salt + session_id + write_long(msg_id) + write_int(seq_no) + write_int(len)`,
and the pad length is `16 - (len(payload) % 16)`, bumped by 16 when below
12. -/
def OdnixPayload.to_bytes (rand : Nat → Bytes) (salt session_id : Bytes)
    (msg_id seq_no : Nat) (msg_bytes : Bytes) : Bytes :=
  let header := salt ++ session_id ++ packU64 msg_id ++ packU32 seq_no ++
    packU32 msg_bytes.length
  let payload := header ++ msg_bytes
  let pad_len0 := 16 - payload.length % 16
  let pad_len := if pad_len0 < 12 then pad_len0 + 16 else pad_len0
  payload ++ rand pad_len

/-- The fixed DH prime of `odnix_security.py`. -/
def DH_PRIME : Nat :=
  0xC71CAEB9C6B1C9048E6C522F70F13F73980D40238E3E21C14934D037563D930F48198A0AA7C14058229493D22530F4DBFA336F6E0AC925139543A94464314C7F2012519CE6DE5BF3ADBD63796D41780160830B75F3A90248238F76953D64AF663004013B9F8D1768822610B71311531E83FA79715DAF63

/-- The fixed DH generator. -/
def DH_G : Nat := 3

/-- Python's three-argument `pow(base, e, m)`. -/
def modexp (base e m : Nat) : Nat := base ^ e % m

/-- Big-endian base-256 digits, driven by a fuel that bounds the number
of digits (the value itself always suffices). -/
def beBytesAux : Nat → Nat → Bytes
  | 0, _ => []
  | fuel + 1, n => if n = 0 then [] else beBytesAux fuel (n / 256) ++ [n % 256]

/-- `Crypto.Util.number.long_to_bytes` for positive inputs: minimal
big-endian encoding. -/
def beBytes (n : Nat) : Bytes :=
  beBytesAux n n

/-- `Crypto.Util.number.long_to_bytes` (`long_to_bytes(0)` is `b'\x00'`). -/
def long_to_bytes (n : Nat) : Bytes :=
  if n = 0 then [0] else beBytes n

/-- `OdnixSecurity.compute_shared_key`: the AuthKey is
`sha256(long_to_bytes(pow(client_public, server_private, DH_PRIME)))`. -/
def compute_shared_key (pr : Prims) (client_public server_private : Nat) : Bytes :=
  pr.sha256 (long_to_bytes (modexp client_public server_private DH_PRIME))

/-- The per-connection state of `CallConsumer`: its `OdnixSecurity`
instance (`self.proto`) and the `handshake_complete` flag. -/
structure ConsumerState where
  proto : OdnixSecurity
  handshake_complete : Bool

/-- An incoming text frame as `CallConsumer.receive` classifies it: either
JSON (with its `type` field, and for `set_client_dh_params` the parsed
`gb` hex value — `none` when missing or unparsable, which raises inside
the handler) or non-JSON text.  `raw` is the original text, which the
encrypted branch passes to `unwrap_message` untouched. -/
inductive Incoming where
  | jsonMsg (msgType : String) (gb : Option Nat) (raw : Bytes)
  | nonJson (raw : Bytes)

/-- The observable outcome of one `CallConsumer.receive` call. -/
inductive ConsumerResponse (P : Type) where
  | resDhParams (server_nonce : Bytes)
  | dhGenOk (server_public : Nat)
  | handshakeError
  | handled (payload : P)
  | decryptNone
  | decryptError (e : String)
  | ignored
deriving DecidableEq

/-- The non-handshake tail of `CallConsumer.receive`: when
`self.handshake_complete and self.proto.auth_key`, the raw text is fed to
`unwrap_message` (exceptions are caught and logged); otherwise the frame
is only logged.  No state changes. -/
def receiveOther {P : Type} (pr : Prims) (jc : JsonCodec P)
    (st : ConsumerState) (raw : Bytes) : ConsumerState × ConsumerResponse P :=
  if st.handshake_complete && !authKeyFalsy st.proto.auth_key then
    match unwrap_message pr jc st.proto raw with
    | .ok (some d) => (st, .handled d)
    | .ok none => (st, .decryptNone)
    | .error e => (st, .decryptError e)
  else (st, .ignored)

/-- `CallConsumer.receive` on a text frame.  `server_private` stands for
`number.getRandomRange(1, prime - 1)` and `nonce` for the
`get_random_bytes(16)` drawn by `create_dh_config`.  The two handshake
branches are checked on the `type` field alone, before and regardless of
`handshake_complete`; `set_client_dh_params` with a parsable `gb`
reassigns `self.proto.auth_key` and sets `handshake_complete = True`. -/
def receive {P : Type} (pr : Prims) (jc : JsonCodec P) (st : ConsumerState)
    (msg : Incoming) (server_private : Nat) (nonce : Bytes) :
    ConsumerState × ConsumerResponse P :=
  match msg with
  | .nonJson raw => receiveOther pr jc st raw
  | .jsonMsg t gb raw =>
    if t = "req_dh_params" then
      ({ st with proto := { st.proto with server_nonce := some nonce } },
       .resDhParams nonce)
    else if t = "set_client_dh_params" then
      match gb with
      | none => (st, .handshakeError)
      | some client_public =>
        let ak := pr.sha256 (long_to_bytes (modexp client_public server_private DH_PRIME))
        let proto2 := { st.proto with auth_key := some ak }
        ({ st with proto := proto2, handshake_complete := true },
         .dhGenOk (modexp DH_G server_private DH_PRIME))
    else receiveOther pr jc st raw

/-- A concrete, fully computable instance of the library primitives, used
to evaluate the definitions at concrete inputs.  The block cipher is the
identity, the digests pad/truncate to the fixed digest lengths, base64 is
the identity. -/
def toyPrims : Prims where
  aesEnc := fun _ b => b
  aesDec := fun _ b => b
  sha256 := fun b => (b ++ List.replicate 32 0).take 32
  sha1 := fun b => (b ++ List.replicate 20 0).take 20
  b64enc := id
  b64dec := some
  aesEnc_len := fun _ _ h => h
  aesDec_len := fun _ _ h => h
  aesDec_enc := fun _ _ _ => rfl
  sha256_len := fun b => by simp
  sha1_len := fun b => by simp
  b64dec_enc := fun _ => rfl

/-- A concrete JSON codec on `Nat` payloads. -/
def toyCodec : JsonCodec Nat where
  dumps := fun n => [n]
  loads := fun b => match b with
    | [n] => some n
    | _ => none
  loads_dumps := fun _ => rfl

/-- A concrete established session. -/
def toySession : OdnixSecurity where
  auth_key := some (List.replicate 32 7)
  session_id := List.replicate 8 2
  salt := List.replicate 8 1
  server_nonce := none

/-- A concrete freshly created session (`OdnixSecurity.__init__`):
`auth_key` absent. -/
def toyFresh : OdnixSecurity where
  auth_key := none
  session_id := List.replicate 8 2
  salt := List.replicate 8 1
  server_nonce := none

/-- A concrete consumer whose handshake has completed. -/
def establishedState : ConsumerState where
  proto := toySession
  handshake_complete := true

/-- The message-key formula as the spec words it:
`message_key = HASH(auth_key || inner_plaintext)[0:16]`. -/
def spec_message_key (pr : Prims) (auth_key inner_plaintext : Bytes) : Bytes :=
  (pr.sha256 (auth_key ++ inner_plaintext)).take 16

/-- The cipher-key formula as the spec words it:
`cipher_key = HASH(message_key || auth_key)` (32 bytes). -/
def spec_cipher_key (pr : Prims) (auth_key message_key : Bytes) : Bytes :=
  pr.sha256 (message_key ++ auth_key)

/-- The IV formula as the spec words it:
`iv = HASH(auth_key || message_key)[0:32]`. -/
def spec_iv (pr : Prims) (auth_key message_key : Bytes) : Bytes :=
  (pr.sha256 (auth_key ++ message_key)).take 32

/-!  ## Supporting lemmas  -/

theorem packU64_length (n : Nat) : (packU64 n).length = 8 := rfl

theorem packU32_length (n : Nat) : (packU32 n).length = 4 := rfl

theorem zipXor_length (a b : Bytes) :
    (zipXor a b).length = min a.length b.length := by
  simp [zipXor]

theorem zipXor_cancel (a : Bytes) : ∀ b : Bytes, a.length ≤ b.length →
    zipXor (zipXor a b) b = a := by
  induction a with
  | nil => intro b _; simp [zipXor]
  | cons x xs ih =>
    intro b hb
    cases b with
    | nil => simp at hb
    | cons y ys =>
      simp only [zipXor, List.zipWith_cons_cons] at *
      rw [Nat.xor_assoc, Nat.xor_self, Nat.xor_zero]
      exact congrArg _ (ih ys (by simpa using hb))

theorem blocks_succ (data : Bytes) (h : data ≠ []) :
    (data.length + 15) / 16 = ((data.drop 16).length + 15) / 16 + 1 := by
  have hp : 0 < data.length := List.length_pos.mpr h
  simp only [List.length_drop]
  omega

theorem igeEncLoop_nil (enc : Bytes → Bytes) (c m : Bytes) :
    igeEncLoop enc [] c m = [] := rfl

theorem igeEncLoop_step (enc : Bytes → Bytes) (data c m : Bytes)
    (h : data ≠ []) :
    igeEncLoop enc data c m =
      zipXor (enc (zipXor (data.take 16) c)) m ++
        igeEncLoop enc (data.drop 16)
          (zipXor (enc (zipXor (data.take 16) c)) m) (data.take 16) := by
  rw [igeEncLoop, blocks_succ data h, igeEncBlocks]
  rfl

theorem igeDecLoop_nil (dec : Bytes → Bytes) (c m : Bytes) :
    igeDecLoop dec [] c m = .ok [] := rfl

theorem igeDecLoop_step (dec : Bytes → Bytes) (data c m : Bytes)
    (h : data ≠ []) (hAligned : (zipXor (data.take 16) m).length % 16 = 0) :
    igeDecLoop dec data c m =
      match igeDecLoop dec (data.drop 16) (data.take 16)
          (zipXor (dec (zipXor (data.take 16) m)) c) with
      | .ok rest => .ok (zipXor (dec (zipXor (data.take 16) m)) c ++ rest)
      | .error e => .error e := by
  rw [igeDecLoop, blocks_succ data h, igeDecBlocks]
  simp only [hAligned, ne_eq, not_true_eq_false, if_false]
  rfl

theorem igeDecLoop_step_error (dec : Bytes → Bytes) (data c m : Bytes)
    (h : data ≠ []) (hMis : (zipXor (data.take 16) m).length % 16 ≠ 0) :
    igeDecLoop dec data c m =
      .error "ValueError: Data must be padded to 16 byte boundary in ECB mode" := by
  rw [igeDecLoop, blocks_succ data h, igeDecBlocks]
  simp [hMis]

theorem igeEncLoop_length (enc : Bytes → Bytes)
    (hEncLen : ∀ b, b.length = 16 → (enc b).length = 16) :
    ∀ n (data c m : Bytes), data.length = n → n % 16 = 0 →
      c.length = 16 → m.length = 16 → (igeEncLoop enc data c m).length = n := by
  intro n
  induction n using Nat.strong_induction_on with
  | _ n ih =>
    intro data c m hlen hmod hc hm
    by_cases h : data = []
    · subst h
      simp only [List.length_nil] at hlen
      simp [igeEncLoop_nil, ← hlen]
    · have h16 : 16 ≤ data.length := by
        have hp : 0 < data.length := List.length_pos.mpr h
        omega
      have htake : (data.take 16).length = 16 := by
        simp [List.length_take]
        omega
      have hi : (zipXor (data.take 16) c).length = 16 := by
        rw [zipXor_length, htake, hc]
        omega
      have hcb : (zipXor (enc (zipXor (data.take 16) c)) m).length = 16 := by
        rw [zipXor_length, hEncLen _ hi, hm]
        omega
      have hdrop : (data.drop 16).length = n - 16 := by
        simp [List.length_drop, hlen]
      rw [igeEncLoop_step enc data c m h, List.length_append, hcb,
        ih (n - 16) (by omega) _ _ _ hdrop (by omega) hcb htake]
      omega

theorem igeDecLoop_encLoop (enc dec : Bytes → Bytes)
    (hEncLen : ∀ b, b.length = 16 → (enc b).length = 16)
    (hDecEnc : ∀ b, b.length = 16 → dec (enc b) = b) :
    ∀ n (data c m : Bytes), data.length = n → n % 16 = 0 →
      c.length = 16 → m.length = 16 →
      igeDecLoop dec (igeEncLoop enc data c m) c m = .ok data := by
  intro n
  induction n using Nat.strong_induction_on with
  | _ n ih =>
    intro data c m hlen hmod hc hm
    by_cases h : data = []
    · subst h
      simp [igeEncLoop_nil, igeDecLoop_nil]
    · have h16 : 16 ≤ data.length := by
        have hp : 0 < data.length := List.length_pos.mpr h
        omega
      have htake : (data.take 16).length = 16 := by
        simp [List.length_take]
        omega
      have hi : (zipXor (data.take 16) c).length = 16 := by
        rw [zipXor_length, htake, hc]
        omega
      have hcb : (zipXor (enc (zipXor (data.take 16) c)) m).length = 16 := by
        rw [zipXor_length, hEncLen _ hi, hm]
        omega
      have hdrop : (data.drop 16).length = n - 16 := by
        simp [List.length_drop, hlen]
      rw [igeEncLoop_step enc data c m h]
      have hne : zipXor (enc (zipXor (data.take 16) c)) m ++
          igeEncLoop enc (data.drop 16)
            (zipXor (enc (zipXor (data.take 16) c)) m) (data.take 16) ≠ [] := by
        intro hcon
        have := congrArg List.length hcon
        simp [List.length_append, hcb] at this
      have htk : (zipXor (enc (zipXor (data.take 16) c)) m ++
          igeEncLoop enc (data.drop 16)
            (zipXor (enc (zipXor (data.take 16) c)) m) (data.take 16)).take 16 =
          zipXor (enc (zipXor (data.take 16) c)) m := List.take_left' hcb
      have hdk : (zipXor (enc (zipXor (data.take 16) c)) m ++
          igeEncLoop enc (data.drop 16)
            (zipXor (enc (zipXor (data.take 16) c)) m) (data.take 16)).drop 16 =
          igeEncLoop enc (data.drop 16)
            (zipXor (enc (zipXor (data.take 16) c)) m) (data.take 16) :=
        List.drop_left' hcb
      have hcancel1 : zipXor (zipXor (enc (zipXor (data.take 16) c)) m) m =
          enc (zipXor (data.take 16) c) :=
        zipXor_cancel _ m (by rw [hEncLen _ hi, hm])
      have hcancel2 : zipXor (zipXor (data.take 16) c) c = data.take 16 :=
        zipXor_cancel _ c (by rw [htake, hc])
      rw [igeDecLoop_step dec _ c m hne (by rw [htk, zipXor_length, hcb, hm]; omega)]
      rw [htk, hdk, hcancel1, hDecEnc _ hi, hcancel2,
        ih (n - 16) (by omega) _ _ _ hdrop (by omega) hcb htake]
      simp [List.take_append_drop]

theorem pkcs7pad_length (d : Bytes) :
    (pkcs7pad d).length = d.length + (16 - d.length % 16) := by
  simp [pkcs7pad]

theorem pkcs7pad_length_mod (d : Bytes) : (pkcs7pad d).length % 16 = 0 := by
  rw [pkcs7pad_length]
  omega

theorem pkcs7pad_getLast (d : Bytes) :
    (pkcs7pad d).getLast? = some (16 - d.length % 16) := by
  have h1 : 0 < 16 - d.length % 16 := by omega
  rw [pkcs7pad, List.getLast?_append_of_ne_nil _ (by simp; omega)]
  cases h2 : 16 - d.length % 16 with
  | zero => omega
  | succ j =>
    rw [List.replicate_succ']
    simp

theorem pkcs7pad_strip (d : Bytes) :
    (pkcs7pad d).take ((pkcs7pad d).length - (16 - d.length % 16)) = d := by
  rw [pkcs7pad_length]
  have h : d.length + (16 - d.length % 16) - (16 - d.length % 16) = d.length := by
    omega
  rw [h, pkcs7pad, List.take_left]

theorem lastBytes_length (n : Nat) (bs : Bytes) :
    (lastBytes n bs).length = min n bs.length := by
  simp only [lastBytes, List.length_drop]
  omega

theorem igeDecLoop_ok_of_aligned (dec : Bytes → Bytes)
    (hDecLen : ∀ b, b.length = 16 → (dec b).length = 16) :
    ∀ n (data c m : Bytes), data.length = n → n % 16 = 0 →
      c.length = 16 → m.length = 16 →
      ∃ d : Bytes, igeDecLoop dec data c m = .ok d ∧ d.length = n := by
  intro n
  induction n using Nat.strong_induction_on with
  | _ n ih =>
    intro data c m hlen hmod hc hm
    by_cases h : data = []
    · subst h
      simp only [List.length_nil] at hlen
      exact ⟨[], igeDecLoop_nil dec c m, by simpa using hlen⟩
    · have h16 : 16 ≤ data.length := by
        have hp : 0 < data.length := List.length_pos.mpr h
        omega
      have htake : (data.take 16).length = 16 := by
        simp [List.length_take]
        omega
      have hi : (zipXor (data.take 16) m).length = 16 := by
        rw [zipXor_length, htake, hm]
        omega
      have hpb : (zipXor (dec (zipXor (data.take 16) m)) c).length = 16 := by
        rw [zipXor_length, hDecLen _ hi, hc]
        omega
      have hdrop : (data.drop 16).length = n - 16 := by
        simp [List.length_drop, hlen]
      obtain ⟨d, hd, hdl⟩ :=
        ih (n - 16) (by omega) (data.drop 16) (data.take 16)
          (zipXor (dec (zipXor (data.take 16) m)) c) hdrop (by omega) htake hpb
      refine ⟨zipXor (dec (zipXor (data.take 16) m)) c ++ d, ?_, ?_⟩
      · rw [igeDecLoop_step dec data c m h (by rw [hi]), hd]
      · rw [List.length_append, hpb, hdl]
        omega

theorem igeDecLoop_error_of_misaligned (dec : Bytes → Bytes)
    (hDecLen : ∀ b, b.length = 16 → (dec b).length = 16) :
    ∀ n (data c m : Bytes), data.length = n → n % 16 ≠ 0 →
      c.length = 16 → m.length = 16 →
      igeDecLoop dec data c m =
        .error "ValueError: Data must be padded to 16 byte boundary in ECB mode" := by
  intro n
  induction n using Nat.strong_induction_on with
  | _ n ih =>
    intro data c m hlen hmod hc hm
    have h : data ≠ [] := by
      intro hcon
      subst hcon
      simp only [List.length_nil] at hlen
      omega
    by_cases h16 : 16 ≤ data.length
    · have htake : (data.take 16).length = 16 := by
        simp [List.length_take]
        omega
      have hi : (zipXor (data.take 16) m).length = 16 := by
        rw [zipXor_length, htake, hm]
        omega
      have hpb : (zipXor (dec (zipXor (data.take 16) m)) c).length = 16 := by
        rw [zipXor_length, hDecLen _ hi, hc]
        omega
      have hdrop : (data.drop 16).length = n - 16 := by
        simp [List.length_drop, hlen]
      rw [igeDecLoop_step dec data c m h (by rw [hi]),
        ih (n - 16) (by omega) (data.drop 16) (data.take 16)
          (zipXor (dec (zipXor (data.take 16) m)) c) hdrop (by omega) htake hpb]
    · have htake : data.take 16 = data := by
        rw [List.take_of_length_le]
        omega
      have hi : (zipXor (data.take 16) m).length = n := by
        rw [htake, zipXor_length, hlen, hm]
        omega
      exact igeDecLoop_step_error dec data c m h (by rw [hi]; exact hmod)

/-- Decrypting the output of `aes_ige_encrypt` with the same key and a
32-byte IV recovers the input: the PKCS7 pad byte is always in `[1,16]`,
so the stripping branch is taken. -/
theorem aes_ige_decrypt_encrypt (pr : Prims) (data key iv : Bytes)
    (hiv : iv.length = 32) :
    aes_ige_decrypt pr (aes_ige_encrypt pr data key iv) key iv = .ok data := by
  have hc : (iv.take 16).length = 16 := by
    simp [List.length_take]
    omega
  have hm : (iv.drop 16).length = 16 := by
    simp [List.length_drop]
    omega
  have hrt := igeDecLoop_encLoop (pr.aesEnc key) (pr.aesDec key)
    (pr.aesEnc_len key) (pr.aesDec_enc key) (pkcs7pad data).length
    (pkcs7pad data) (iv.take 16) (iv.drop 16) rfl (pkcs7pad_length_mod data)
    hc hm
  rw [aes_ige_decrypt, aes_ige_encrypt, hrt]
  have hpad : ¬(16 - data.length % 16 < 1 ∨ 16 - data.length % 16 > 16) := by
    omega
  simp only [pkcs7pad_getLast, hpad, if_false]
  rw [pkcs7pad_strip]

theorem isEmpty_false_of_ne_nil {k : Bytes} (hk : k ≠ []) :
    k.isEmpty = false := by
  cases k with
  | nil => exact absurd rfl hk
  | cons x xs => rfl

/-- `wrap_message` on an established session, with its output spelled
out. -/
theorem wrap_message_ok {P : Type} (pr : Prims) (jc : JsonCodec P)
    (s : OdnixSecurity) (now : Nat) (payload : P) (k : Bytes)
    (hak : s.auth_key = some k) (hk : k ≠ []) :
    wrap_message pr jc s now payload =
      .ok (pr.b64enc (authKeyIdOf pr k ++
        msgKeyOf pr k (s.salt ++ s.session_id ++ packU64 now ++ jc.dumps payload) ++
        aes_ige_encrypt pr
          (s.salt ++ s.session_id ++ packU64 now ++ jc.dumps payload)
          (aesKeyOf pr k (msgKeyOf pr k
            (s.salt ++ s.session_id ++ packU64 now ++ jc.dumps payload)))
          (aesIvOf pr k (msgKeyOf pr k
            (s.salt ++ s.session_id ++ packU64 now ++ jc.dumps payload))))) := by
  simp [wrap_message, hak, isEmpty_false_of_ne_nil hk]

/-- The length of `aes_ige_encrypt`'s output: the padded length of its
input (the IV halves are 16 bytes whenever the IV has 32). -/
theorem aes_ige_encrypt_length (pr : Prims) (data key iv : Bytes)
    (hiv : iv.length = 32) :
    (aes_ige_encrypt pr data key iv).length = (pkcs7pad data).length := by
  have hc : (iv.take 16).length = 16 := by
    simp [List.length_take]
    omega
  have hm : (iv.drop 16).length = 16 := by
    simp [List.length_drop]
    omega
  exact igeEncLoop_length (pr.aesEnc key) (pr.aesEnc_len key)
    (pkcs7pad data).length (pkcs7pad data) (iv.take 16) (iv.drop 16) rfl
    (pkcs7pad_length_mod data) hc hm

/-- `unwrap_message` on any frame whose ciphertext was produced by
`aes_ige_encrypt` under the keys derived from the frame's own
`message_key` field: the frame is processed with no integrity
comparison — the result depends only on the decrypted bytes. -/
theorem unwrap_message_frame {P : Type} (pr : Prims) (jc : JsonCodec P)
    (s : OdnixSecurity) (k akid mk inner : Bytes)
    (hak : s.auth_key = some k) (hk : k ≠ [])
    (hakid : akid.length = 8) (hmk : mk.length = 16) :
    unwrap_message pr jc s (pr.b64enc (akid ++ mk ++
        aes_ige_encrypt pr inner (aesKeyOf pr k mk) (aesIvOf pr k mk))) =
      .ok (if inner.length < 24 then none else jc.loads (inner.drop 24)) := by
  have hiv : (aesIvOf pr k mk).length = 32 := pr.sha256_len _
  have hct : (aes_ige_encrypt pr inner (aesKeyOf pr k mk)
      (aesIvOf pr k mk)).length = (pkcs7pad inner).length :=
    aes_ige_encrypt_length pr _ _ _ hiv
  have hlen : (akid ++ mk ++ aes_ige_encrypt pr inner (aesKeyOf pr k mk)
      (aesIvOf pr k mk)).length = 24 + (pkcs7pad inner).length := by
    simp [List.length_append, hakid, hmk, hct]
    omega
  have hnotshort : ¬((akid ++ mk ++ aes_ige_encrypt pr inner (aesKeyOf pr k mk)
      (aesIvOf pr k mk)).length < 24) := by
    rw [hlen]
    omega
  have hdrop8 : (akid ++ mk ++ aes_ige_encrypt pr inner (aesKeyOf pr k mk)
      (aesIvOf pr k mk)).drop 8 = mk ++ aes_ige_encrypt pr inner
        (aesKeyOf pr k mk) (aesIvOf pr k mk) := by
    rw [List.append_assoc]
    exact List.drop_left' hakid
  have hmsgkey : ((akid ++ mk ++ aes_ige_encrypt pr inner (aesKeyOf pr k mk)
      (aesIvOf pr k mk)).drop 8).take 16 = mk := by
    rw [hdrop8]
    exact List.take_left' hmk
  have hdrop24 : (akid ++ mk ++ aes_ige_encrypt pr inner (aesKeyOf pr k mk)
      (aesIvOf pr k mk)).drop 24 = aes_ige_encrypt pr inner
        (aesKeyOf pr k mk) (aesIvOf pr k mk) :=
    List.drop_left' (by simp [hakid, hmk])
  simp only [unwrap_message, hak, isEmpty_false_of_ne_nil hk, Bool.false_eq_true,
    if_false, pr.b64dec_enc, hnotshort, hmsgkey, hdrop24,
    aes_ige_decrypt_encrypt pr inner _ _ hiv]
  by_cases hshort : inner.length < 24
  · simp [hshort]
  · simp only [hshort, if_false]
    cases jc.loads (inner.drop 24) <;> simp

/-!  ## Claim theorems  -/

/-- C1: for every JSON-serializable payload and every session whose
`auth_key` is present (with the 8-byte `salt`/`session_id` the constructor
creates), unwrapping the result of wrapping the payload on that same
session returns the payload: `unwrap_message(wrap_message(P)) == P`. -/
theorem C1_wrap_unwrap_roundtrip {P : Type} (pr : Prims) (jc : JsonCodec P)
    (s : OdnixSecurity) (now : Nat) (payload : P) (k w : Bytes)
    (hak : s.auth_key = some k) (hk : k ≠ [])
    (hsalt : s.salt.length = 8) (hsid : s.session_id.length = 8)
    (hw : wrap_message pr jc s now payload = .ok w) :
    unwrap_message pr jc s w = .ok (some payload) := by
  rw [wrap_message_ok pr jc s now payload k hak hk] at hw
  have hw2 := Except.ok.inj hw
  subst hw2
  have hakid : (authKeyIdOf pr k).length = 8 := by
    rw [authKeyIdOf, lastBytes_length, pr.sha1_len]
    omega
  have hmk : (msgKeyOf pr k
      (s.salt ++ s.session_id ++ packU64 now ++ jc.dumps payload)).length = 16 := by
    simp only [msgKeyOf, List.length_take, pr.sha256_len]
    omega
  rw [unwrap_message_frame pr jc s k (authKeyIdOf pr k)
    (msgKeyOf pr k (s.salt ++ s.session_id ++ packU64 now ++ jc.dumps payload))
    (s.salt ++ s.session_id ++ packU64 now ++ jc.dumps payload)
    hak hk hakid hmk]
  have hassoc : s.salt ++ s.session_id ++ packU64 now ++ jc.dumps payload =
      (s.salt ++ s.session_id ++ packU64 now) ++ jc.dumps payload := by
    simp [List.append_assoc]
  have hhead : (s.salt ++ s.session_id ++ packU64 now).length = 24 := by
    simp [List.length_append, hsalt, hsid, packU64_length]
  have hdrop : (s.salt ++ s.session_id ++ packU64 now ++ jc.dumps payload).drop 24 =
      jc.dumps payload := by
    rw [hassoc]
    exact List.drop_left' hhead
  have hlen : ¬((s.salt ++ s.session_id ++ packU64 now ++ jc.dumps payload).length < 24) := by
    rw [hassoc, List.length_append, hhead]
    omega
  rw [if_neg hlen, hdrop, jc.loads_dumps]

/-- C1 witness: the round trip evaluated on a concrete established
session and payload. -/
theorem C1_witness :
    unwrap_message toyPrims toyCodec toySession
      (toyPrims.b64enc (authKeyIdOf toyPrims (List.replicate 32 7) ++
        msgKeyOf toyPrims (List.replicate 32 7)
          (toySession.salt ++ toySession.session_id ++ packU64 0 ++
            toyCodec.dumps 5) ++
        aes_ige_encrypt toyPrims
          (toySession.salt ++ toySession.session_id ++ packU64 0 ++
            toyCodec.dumps 5)
          (aesKeyOf toyPrims (List.replicate 32 7) (msgKeyOf toyPrims
            (List.replicate 32 7) (toySession.salt ++ toySession.session_id ++
              packU64 0 ++ toyCodec.dumps 5)))
          (aesIvOf toyPrims (List.replicate 32 7) (msgKeyOf toyPrims
            (List.replicate 32 7) (toySession.salt ++ toySession.session_id ++
              packU64 0 ++ toyCodec.dumps 5))))) = .ok (some 5) :=
  C1_wrap_unwrap_roundtrip toyPrims toyCodec toySession 0 5
    (List.replicate 32 7) _ rfl (by decide) rfl rfl rfl

/-- C8: on a session whose `auth_key` is absent, both `wrap_message` and
`unwrap_message` fail with the not-established error
(`ValueError("No AuthKey established")`) and return no data. -/
theorem C8_not_established {P : Type} (pr : Prims) (jc : JsonCodec P)
    (s : OdnixSecurity) (now : Nat) (payload : P) (wire : Bytes)
    (hak : s.auth_key = none) :
    wrap_message pr jc s now payload = .error "No AuthKey established" ∧
    unwrap_message pr jc s wire = .error "No AuthKey established" := by
  constructor
  · simp [wrap_message, hak]
  · simp [unwrap_message, hak]

/-- C8 witness: both guards evaluated on a concrete fresh session. -/
theorem C8_witness :
    wrap_message toyPrims toyCodec toyFresh 0 5 =
      .error "No AuthKey established" ∧
    unwrap_message toyPrims toyCodec toyFresh (List.replicate 30 0) =
      .error "No AuthKey established" :=
  C8_not_established toyPrims toyCodec toyFresh 0 5 (List.replicate 30 0) rfl

/-- C9: modular exponentiation over the fixed prime and generator
commutes, so both DH sides derive the same shared secret, and
`compute_shared_key` derives the AuthKey as the SHA-256 hash of the
shared secret's big-endian byte encoding. -/
theorem C9_dh_commutes :
    (∀ a b : Nat, modexp (modexp DH_G a DH_PRIME) b DH_PRIME =
      modexp (modexp DH_G b DH_PRIME) a DH_PRIME) ∧
    (∀ (pr : Prims) (cp sp : Nat), compute_shared_key pr cp sp =
      pr.sha256 (long_to_bytes (modexp cp sp DH_PRIME))) := by
  constructor
  · intro a b
    simp only [modexp]
    rw [← Nat.pow_mod, ← Nat.pow_mod, ← pow_mul, ← pow_mul, Nat.mul_comm]
  · intro pr cp sp
    rfl

/-- C2 counterexample: a concrete established session and a concrete
frame whose `message_key` field (all zeros) differs from the message key
recomputed over the decrypted plaintext, yet `unwrap_message` accepts the
frame and returns its payload instead of rejecting it. -/
theorem C2_counterexample :
    unwrap_message toyPrims toyCodec toySession
      (toyPrims.b64enc (List.replicate 8 4 ++ List.replicate 16 0 ++
        aes_ige_encrypt toyPrims (List.replicate 24 0 ++ [9])
          (aesKeyOf toyPrims (List.replicate 32 7) (List.replicate 16 0))
          (aesIvOf toyPrims (List.replicate 32 7) (List.replicate 16 0)))) =
      .ok (some 9) ∧
    msgKeyOf toyPrims (List.replicate 32 7) (List.replicate 24 0 ++ [9]) ≠
      List.replicate 16 0 := by
  constructor
  · rfl
  · decide

/-- C2 amended: `unwrap_message` performs no integrity comparison: for an
established session and an arbitrary 16-byte `message_key` field `mk` —
with no hypothesis relating `mk` to the message key recomputed over the
plaintext — a frame whose ciphertext decrypts under the keys derived from
`mk` to a well-formed inner blob is accepted and its payload returned. -/
theorem C2_no_integrity_check {P : Type} (pr : Prims) (jc : JsonCodec P)
    (s : OdnixSecurity) (k akid mk inner : Bytes)
    (hak : s.auth_key = some k) (hk : k ≠ [])
    (hakid : akid.length = 8) (hmk : mk.length = 16)
    (hinner : 24 ≤ inner.length) :
    unwrap_message pr jc s (pr.b64enc (akid ++ mk ++
        aes_ige_encrypt pr inner (aesKeyOf pr k mk) (aesIvOf pr k mk))) =
      .ok (jc.loads (inner.drop 24)) := by
  rw [unwrap_message_frame pr jc s k akid mk inner hak hk hakid hmk,
    if_neg (by omega)]

/-- C2 witness: the amended statement evaluated on a concrete forged
frame. -/
theorem C2_witness :
    unwrap_message toyPrims toyCodec toySession
      (toyPrims.b64enc (List.replicate 8 3 ++ List.replicate 16 11 ++
        aes_ige_encrypt toyPrims (List.replicate 24 0 ++ [8])
          (aesKeyOf toyPrims (List.replicate 32 7) (List.replicate 16 11))
          (aesIvOf toyPrims (List.replicate 32 7) (List.replicate 16 11)))) =
      .ok (toyCodec.loads ((List.replicate 24 0 ++ [8]).drop 24)) :=
  C2_no_integrity_check toyPrims toyCodec toySession (List.replicate 32 7)
    (List.replicate 8 3) (List.replicate 16 11) (List.replicate 24 0 ++ [8])
    rfl (by decide) rfl rfl (by decide)

/-- C3 counterexample: a concrete consumer in the `ESTABLISHED` state
(`handshake_complete = true`, `auth_key` present) that receives a further
`set_client_dh_params` handshake message: the message is processed (the
response is `dh_gen_ok`, not a protocol error) and the session's
`auth_key` is reassigned in place to a different value. -/
theorem C3_counterexample :
    (receive toyPrims toyCodec establishedState
      (.jsonMsg "set_client_dh_params" (some 2) []) 1 []).2 =
      .dhGenOk (modexp DH_G 1 DH_PRIME) ∧
    (receive toyPrims toyCodec establishedState
      (.jsonMsg "set_client_dh_params" (some 2) []) 1 []).1.proto.auth_key ≠
      establishedState.proto.auth_key ∧
    establishedState.handshake_complete = true := by
  refine ⟨rfl, by decide, rfl⟩

/-- C3 amended: the handshake branches of `receive` are dispatched on the
message `type` alone, before and regardless of `handshake_complete`: a
`set_client_dh_params` message with a parsable `gb` always recomputes and
reassigns `auth_key` in place, re-marks the session established, and
answers `dh_gen_ok` — also on a session that is already `ESTABLISHED`. -/
theorem C3_rehandshake_processed {P : Type} (pr : Prims) (jc : JsonCodec P)
    (st : ConsumerState) (gb server_private : Nat) (nonce raw : Bytes) :
    receive pr jc st (.jsonMsg "set_client_dh_params" (some gb) raw)
        server_private nonce =
      (⟨OdnixSecurity.mk
          (some (pr.sha256 (long_to_bytes (modexp gb server_private DH_PRIME))))
          st.proto.session_id st.proto.salt st.proto.server_nonce,
        true⟩,
        .dhGenOk (modexp DH_G server_private DH_PRIME)) := rfl

/-- C4: the code evaluated at a failing input.  Decrypting a concrete
16-byte buffer whose IGE decryption ends in the byte 0 — a pad length
outside `[1, 16]` — does not fail: `aes_ige_decrypt` returns the raw
unstripped plaintext as a success value. -/
theorem C4_out_of_range_pad_returned :
    aes_ige_decrypt toyPrims (List.replicate 16 0) (List.replicate 32 0)
      (List.replicate 32 0) = .ok (List.replicate 16 0) ∧
    (List.replicate 16 0 : Bytes).getLast? = some 0 := by
  refine ⟨rfl, by decide⟩

/-- C5: the derived values equal the spec formulas —
`message_key = SHA-256(auth_key ‖ inner)[0:16]`,
`cipher_key = SHA-256(message_key ‖ auth_key)`,
`iv = SHA-256(auth_key ‖ message_key)[0:32]` — and wrap (sender) and
unwrap (receiver, from the received `message_key`) use these same
formulas symmetrically. -/
theorem C5_key_derivation {P : Type} (pr : Prims) (jc : JsonCodec P)
    (s : OdnixSecurity) (now : Nat) (payload : P) (k akid mk inner : Bytes)
    (hak : s.auth_key = some k) (hk : k ≠ [])
    (hakid : akid.length = 8) (hmk : mk.length = 16) :
    msgKeyOf pr k inner = spec_message_key pr k inner ∧
    aesKeyOf pr k mk = spec_cipher_key pr k mk ∧
    aesIvOf pr k mk = spec_iv pr k mk ∧
    wrap_message pr jc s now payload =
      .ok (pr.b64enc (authKeyIdOf pr k ++
        spec_message_key pr k
          (s.salt ++ s.session_id ++ packU64 now ++ jc.dumps payload) ++
        aes_ige_encrypt pr
          (s.salt ++ s.session_id ++ packU64 now ++ jc.dumps payload)
          (spec_cipher_key pr k (spec_message_key pr k
            (s.salt ++ s.session_id ++ packU64 now ++ jc.dumps payload)))
          (spec_iv pr k (spec_message_key pr k
            (s.salt ++ s.session_id ++ packU64 now ++ jc.dumps payload))))) ∧
    unwrap_message pr jc s (pr.b64enc (akid ++ mk ++
        aes_ige_encrypt pr inner (spec_cipher_key pr k mk) (spec_iv pr k mk))) =
      .ok (if inner.length < 24 then none else jc.loads (inner.drop 24)) := by
  have h3 : ∀ a m0 : Bytes, spec_iv pr a m0 = aesIvOf pr a m0 := by
    intro a m0
    rw [spec_iv, aesIvOf]
    exact List.take_of_length_le (le_of_eq (pr.sha256_len _))
  have h2 : ∀ a m0 : Bytes, spec_cipher_key pr a m0 = aesKeyOf pr a m0 :=
    fun _ _ => rfl
  have h1 : ∀ a i : Bytes, spec_message_key pr a i = msgKeyOf pr a i :=
    fun _ _ => rfl
  refine ⟨rfl, rfl, (h3 k mk).symm, ?_, ?_⟩
  · rw [wrap_message_ok pr jc s now payload k hak hk, h1, h2, h3]
  · rw [h2, h3, unwrap_message_frame pr jc s k akid mk inner hak hk hakid hmk]

/-- C5 witness: the symmetric derivation evaluated on a concrete frame. -/
theorem C5_witness :
    unwrap_message toyPrims toyCodec toySession
      (toyPrims.b64enc (List.replicate 8 3 ++ List.replicate 16 0 ++
        aes_ige_encrypt toyPrims (List.replicate 24 1 ++ [6])
          (spec_cipher_key toyPrims (List.replicate 32 7) (List.replicate 16 0))
          (spec_iv toyPrims (List.replicate 32 7) (List.replicate 16 0)))) =
      .ok (if (List.replicate 24 1 ++ [6] : Bytes).length < 24 then none
        else toyCodec.loads ((List.replicate 24 1 ++ [6]).drop 24)) :=
  (C5_key_derivation toyPrims toyCodec toySession 0 5 (List.replicate 32 7)
    (List.replicate 8 3) (List.replicate 16 0) (List.replicate 24 1 ++ [6])
    rfl (by decide) rfl rfl).2.2.2.2

/-- C6 counterexample: in the encryption path actually used by
`wrap_message` (`aes_ige_encrypt`'s PKCS7 step), a concrete 15-byte inner
payload receives exactly 1 byte of padding — fewer than the 12 bytes the
claim requires. -/
theorem C6_counterexample :
    (pkcs7pad (List.replicate 15 0)).length -
      (List.replicate 15 0 : Bytes).length = 1 ∧
    (aes_ige_encrypt toyPrims (List.replicate 15 0) (List.replicate 32 0)
      (List.replicate 32 0)).length = 16 := by
  exact ⟨by decide, rfl⟩

/-- C6 amended: padding always makes the total length a multiple of 16 in
both serializers, but only `OdnixPayload.to_bytes` guarantees at least 12
bytes of padding (and at most 27); the PKCS7 padding used by
`wrap_message`'s encryption path (`aes_ige_encrypt`) is between 1 and 16
bytes and can be fewer than 12. -/
theorem C6_padding (rand : Nat → Bytes) (salt session_id : Bytes)
    (msg_id seq_no : Nat) (msg_bytes data : Bytes)
    (hrand : ∀ n, (rand n).length = n)
    (hsalt : salt.length = 8) (hsid : session_id.length = 8) :
    (OdnixPayload.to_bytes rand salt session_id msg_id seq_no
      msg_bytes).length % 16 = 0 ∧
    12 ≤ (OdnixPayload.to_bytes rand salt session_id msg_id seq_no
      msg_bytes).length - (32 + msg_bytes.length) ∧
    (OdnixPayload.to_bytes rand salt session_id msg_id seq_no
      msg_bytes).length - (32 + msg_bytes.length) ≤ 27 ∧
    (pkcs7pad data).length % 16 = 0 ∧
    1 ≤ (pkcs7pad data).length - data.length ∧
    (pkcs7pad data).length - data.length ≤ 16 := by
  refine ⟨?_, ?_, ?_, ?_, ?_, ?_⟩
  · simp only [OdnixPayload.to_bytes, List.length_append, hsalt, hsid,
      packU64_length, packU32_length, hrand]
    split_ifs <;> omega
  · simp only [OdnixPayload.to_bytes, List.length_append, hsalt, hsid,
      packU64_length, packU32_length, hrand]
    split_ifs <;> omega
  · simp only [OdnixPayload.to_bytes, List.length_append, hsalt, hsid,
      packU64_length, packU32_length, hrand]
    split_ifs <;> omega
  · rw [pkcs7pad_length]
    omega
  · rw [pkcs7pad_length]
    omega
  · rw [pkcs7pad_length]
    omega

/-- C6 witness: the padding bounds evaluated on concrete inputs. -/
theorem C6_witness :
    12 ≤ (OdnixPayload.to_bytes (fun n => List.replicate n 9)
      (List.replicate 8 1) (List.replicate 8 2) 0 0 [1, 2, 3]).length -
      (32 + ([1, 2, 3] : Bytes).length) :=
  (C6_padding (fun n => List.replicate n 9) (List.replicate 8 1)
    (List.replicate 8 2) 0 0 [1, 2, 3] [5]
    (fun n => by simp) rfl rfl).2.1

/-- C7: decoding the wire-frame envelope on fewer than 24 bytes fails
explicitly with the malformed-frame error (`ValueError("Packet too
short")`); on at least 24 bytes it splits at fixed offsets into the
8-byte `auth_key_id`, the 16-byte `msg_key` and the remaining
ciphertext. -/
theorem C7_frame_decode (data : Bytes) :
    (data.length < 24 →
      OdnixPacket.from_bytes data = .error "Packet too short") ∧
    (24 ≤ data.length →
      OdnixPacket.from_bytes data =
        .ok ⟨data.take 8, (data.drop 8).take 16, data.drop 24⟩ ∧
      (data.take 8).length = 8 ∧ ((data.drop 8).take 16).length = 16) := by
  constructor
  · intro h
    simp [OdnixPacket.from_bytes, h]
  · intro h
    refine ⟨?_, ?_, ?_⟩
    · rw [OdnixPacket.from_bytes, if_neg (by omega)]
    · simp only [List.length_take]
      omega
    · simp only [List.length_take, List.length_drop]
      omega

/-- C7 witness: both branches evaluated on concrete inputs. -/
theorem C7_witness :
    OdnixPacket.from_bytes (List.replicate 10 0) =
      .error "Packet too short" ∧
    OdnixPacket.from_bytes (List.replicate 24 1) =
      .ok ⟨(List.replicate 24 1).take 8, ((List.replicate 24 1).drop 8).take 16,
        (List.replicate 24 1).drop 24⟩ :=
  ⟨(C7_frame_decode (List.replicate 10 0)).1 (by decide),
    ((C7_frame_decode (List.replicate 24 1)).2 (by decide)).1⟩

/-- C10 counterexample: on an established session, an input that decodes
to exactly 24 bytes (empty ciphertext) makes `unwrap_message` raise
(`plaintext[-1]` on the empty decryption raises `IndexError`) instead of
returning `None`. -/
theorem C10_counterexample :
    unwrap_message toyPrims toyCodec toySession (List.replicate 24 0) =
      .error "IndexError: index out of range" := rfl

/-- C10 amended: on an established session `unwrap_message` returns the
distinguished empty result (`None`) for invalid base64, for decodes of
fewer than 24 bytes, and — whenever the ciphertext part is non-empty and
16-byte aligned, so that decryption succeeds — for inner data that is too
short or fails to parse; but a decode of exactly 24 bytes raises
`IndexError`, and a ciphertext that is not a multiple of 16 bytes raises
`ValueError`. -/
theorem C10_unwrap_totality {P : Type} (pr : Prims) (jc : JsonCodec P)
    (s : OdnixSecurity) (k wire packet : Bytes)
    (hak : s.auth_key = some k) (hk : k ≠ []) :
    (pr.b64dec wire = none → unwrap_message pr jc s wire = .ok none) ∧
    (pr.b64dec wire = some packet → packet.length < 24 →
      unwrap_message pr jc s wire = .ok none) ∧
    (pr.b64dec wire = some packet → 24 < packet.length →
      (packet.length - 24) % 16 = 0 →
      ∃ d : Bytes,
        aes_ige_decrypt pr (packet.drop 24)
          (aesKeyOf pr k ((packet.drop 8).take 16))
          (aesIvOf pr k ((packet.drop 8).take 16)) = .ok d ∧
        unwrap_message pr jc s wire =
          .ok (if d.length < 24 then none else jc.loads (d.drop 24))) ∧
    (pr.b64dec wire = some packet → packet.length = 24 →
      unwrap_message pr jc s wire =
        .error "IndexError: index out of range") ∧
    (pr.b64dec wire = some packet → 24 < packet.length →
      (packet.length - 24) % 16 ≠ 0 →
      unwrap_message pr jc s wire =
        .error "ValueError: Data must be padded to 16 byte boundary in ECB mode") := by
  have hke := isEmpty_false_of_ne_nil hk
  have hct : (packet.drop 24).length = packet.length - 24 := by
    simp [List.length_drop]
  have hivlen : (aesIvOf pr k ((packet.drop 8).take 16)).length = 32 :=
    pr.sha256_len _
  have hc : ((aesIvOf pr k ((packet.drop 8).take 16)).take 16).length = 16 := by
    simp [List.length_take, hivlen]
  have hm : ((aesIvOf pr k ((packet.drop 8).take 16)).drop 16).length = 16 := by
    simp [List.length_drop, hivlen]
  refine ⟨?_, ?_, ?_, ?_, ?_⟩
  · intro h
    simp [unwrap_message, hak, hke, h]
  · intro h hlt
    simp [unwrap_message, hak, hke, h, hlt]
  · intro h hgt hmod
    obtain ⟨d0, hd0, hd0l⟩ := igeDecLoop_ok_of_aligned
      (pr.aesDec (aesKeyOf pr k ((packet.drop 8).take 16)))
      (pr.aesDec_len _) (packet.length - 24) (packet.drop 24) _ _
      hct hmod hc hm
    have hd0ne : d0 ≠ [] := by
      intro hcon
      subst hcon
      simp only [List.length_nil] at hd0l
      omega
    obtain ⟨l, hl⟩ : ∃ l, d0.getLast? = some l := by
      cases hgl : d0.getLast? with
      | none => exact absurd (List.getLast?_eq_none_iff.mp hgl) hd0ne
      | some l => exact ⟨l, rfl⟩
    obtain ⟨d, hd⟩ : ∃ d, aes_ige_decrypt pr (packet.drop 24)
        (aesKeyOf pr k ((packet.drop 8).take 16))
        (aesIvOf pr k ((packet.drop 8).take 16)) = .ok d := by
      rw [aes_ige_decrypt, hd0]
      simp only [hl]
      by_cases hpl : l < 1 ∨ l > 16
      · exact ⟨d0, by rw [if_pos hpl]⟩
      · exact ⟨d0.take (d0.length - l), by rw [if_neg hpl]⟩
    refine ⟨d, hd, ?_⟩
    simp only [unwrap_message, hak, hke, Bool.false_eq_true, if_false, h,
      Nat.not_lt.mpr (by omega : 24 ≤ packet.length), hd]
    cases jc.loads (d.drop 24) <;> by_cases hdl : d.length < 24 <;>
      simp [hdl]
  · intro h h24
    have hdrop : packet.drop 24 = [] := by
      rw [← h24]
      exact List.drop_length packet
    simp [unwrap_message, hak, hke, h, h24, aes_ige_decrypt, hdrop,
      igeDecLoop_nil]
  · intro h hgt hmod
    have herr := igeDecLoop_error_of_misaligned
      (pr.aesDec (aesKeyOf pr k ((packet.drop 8).take 16)))
      (pr.aesDec_len _) (packet.length - 24) (packet.drop 24) _ _
      hct hmod hc hm
    simp only [unwrap_message, hak, hke, Bool.false_eq_true, if_false, h,
      Nat.not_lt.mpr (by omega : 24 ≤ packet.length), aes_ige_decrypt, herr]

/-- C10 witness: the short-decode branch evaluated on a concrete
established session. -/
theorem C10_witness :
    unwrap_message toyPrims toyCodec toySession (List.replicate 10 0) =
      .ok none :=
  (C10_unwrap_totality toyPrims toyCodec toySession (List.replicate 32 7)
    (List.replicate 10 0) (List.replicate 10 0) rfl (by decide)).2.1
    rfl (by decide)

end Odnix
